import Mathlib

/-!
Shallow embedding of the binary merge/layout engine in `src/merger.py`.

Bytes are modelled as natural numbers (meaningful values are < 256) and byte
strings as `List Nat`.  The filesystem that `merge_binaries` reads source
files from is modelled as a function `String → Option (List Nat)`: `none`
models an unreadable/missing file (Python `open` raising `OSError`).
`struct.pack` range failures are modelled by the `structError` case of
`MergeError`; Python exceptions become the `Except` monad, and "the engine
wrote buffer `b` to the destination" is modelled by the `.ok` result carrying
`b` — an `.error` result carries no buffer, i.e. nothing is written.
-/

/-- `struct.pack("<H", v)` produces the two little-endian bytes of `v`. -/
def le16 (v : Nat) : List Nat := [v % 256, v / 256 % 256]

/-- `struct.pack("<I", v)` produces the four little-endian bytes of `v`. -/
def le32 (v : Nat) : List Nat :=
  [v % 256, v / 256 % 256, v / 2 ^ 16 % 256, v / 2 ^ 24 % 256]

/-- `struct.unpack("<H", buf[i:i+2])`: read two little-endian bytes. -/
def readLE16 (buf : List Nat) (i : Nat) : Nat :=
  buf.getD i 0 + 256 * buf.getD (i + 1) 0

/-- `struct.unpack("<I", buf[i:i+4])`: read four little-endian bytes. -/
def readLE32 (buf : List Nat) (i : Nat) : Nat :=
  buf.getD i 0 + 256 * buf.getD (i + 1) 0 + 2 ^ 16 * buf.getD (i + 2) 0 +
    2 ^ 24 * buf.getD (i + 3) 0

/-- `CRC32_POLY` from `merger.py` (reflected CRC-32 polynomial). -/
def CRC32_POLY : Nat := 0xEDB88320

/-- One shift step of the reflected CRC-32: shift right, conditionally xor
the polynomial (the step `binascii.crc32` applies per bit). -/
def crcShift (crc : Nat) : Nat :=
  if crc % 2 = 1 then (crc / 2) ^^^ CRC32_POLY else crc / 2

/-- Feed one byte into the running CRC: xor into the low 8 bits, then apply
eight shift steps. -/
def crcFeed (crc b : Nat) : Nat :=
  crcShift (crcShift (crcShift (crcShift (crcShift (crcShift (crcShift
    (crcShift (crc ^^^ (b % 256)))))))))

/-- `calculate_crc32` from `merger.py`: `binascii.crc32(data) & 0xFFFFFFFF`,
i.e. reflected CRC-32 with initial value and final xor `0xFFFFFFFF`. -/
def calculate_crc32 (data : List Nat) : Nat :=
  (data.foldl crcFeed 0xFFFFFFFF) ^^^ 0xFFFFFFFF

/-- Failures `merge_binaries` can raise before anything is written. -/
inductive MergeError where
  | sourceRead (path : String)
  | structError
deriving DecidableEq, Repr

/-- `AIO_MAGIC = b"AIOH"`. -/
def AIO_MAGIC : List Nat := [0x41, 0x49, 0x4F, 0x48]

/-- `ELAN_VENDOR_ID = 0x04F3`. -/
def ELAN_VENDOR_ID : Nat := 0x04F3

/-- `ELAN_PRODUCT_ID = b"\x08\x56"`. -/
def ELAN_PRODUCT_ID : List Nat := [0x08, 0x56]

/-- `0x20 + (fw_count * 0x50)`, computed identically in `generate_aio_header`
and in `merge_binaries`. -/
def total_header_size (fw_count : Nat) : Nat := 0x20 + fw_count * 0x50

/-- `generate_aio_header` from `merger.py`.  `struct.pack("<H", hs)` fails when
`hs` exceeds `0xFFFF` and `struct.pack("<B", fw_count)` fails when `fw_count`
exceeds `0xFF` (in that evaluation order); otherwise the 0x20-byte header is
magic, version `0x0001`, header size, device type `0x01`, firmware version
`0x12345678`, update control `0x00`, firmware count, then 17 bytes `0xFF`. -/
def generate_aio_header (fw_count : Nat) : Except MergeError (List Nat) :=
  if total_header_size fw_count ≤ 0xFFFF then
    if fw_count ≤ 0xFF then
      .ok (AIO_MAGIC ++ [0x01, 0x00] ++ le16 (total_header_size fw_count) ++
        [0x01] ++ [0x78, 0x56, 0x34, 0x12] ++ [0x00] ++ [fw_count] ++
        List.replicate 17 0xFF)
    else .error .structError
  else .error .structError

/-- `generate_elan_header` from `merger.py`.  The 0x50-byte header starts as a
zero-filled `bytearray`; fields are then written at fixed offsets (vendor id at
0x00, product id at 0x22, unique id `0xFF 0xFF` at 0x24, firmware version
`0x1234` at 0x26, offset at 0x28, size at 0x2C, CRC at 0x30, bytes `0xFF` at
0x40–0x4F), which is the concatenation below; bytes 0x02–0x21 and 0x34–0x3F
keep the zero fill.  `struct.pack_into("<I", ...)` fails when a value exceeds
`0xFFFFFFFF`. -/
def generate_elan_header (fw_offset fw_size crc32_val : Nat) :
    Except MergeError (List Nat) :=
  if fw_offset ≤ 0xFFFFFFFF then
    if fw_size ≤ 0xFFFFFFFF then
      if crc32_val ≤ 0xFFFFFFFF then
        .ok (le16 ELAN_VENDOR_ID ++ List.replicate 0x20 0x00 ++
          ELAN_PRODUCT_ID ++ [0xFF, 0xFF] ++ [0x34, 0x12] ++ le32 fw_offset ++
          le32 fw_size ++ le32 crc32_val ++ List.replicate 12 0x00 ++
          List.replicate 16 0xFF)
      else .error .structError
    else .error .structError
  else .error .structError

/-- One input entry of `merge_binaries`: `{"path": ..., "offset": ...}` where
the offset is an already-validated integer or `None`. -/
structure Target where
  path : String
  offset : Option Nat
deriving DecidableEq, Repr

/-- One element of `fw_data_list`: payload bytes, resolved offset, size. -/
structure FwEntry where
  data : List Nat
  offset : Nat
  size : Nat
deriving DecidableEq, Repr

/-- The offset rules of step 1 of `merge_binaries` (`hs` is
`total_header_size`, `cur` is `current_offset`): a `None` offset resolves to
`max(current_offset, total_header_size)`; an explicit offset below
`total_header_size` is clamped up to it; any other explicit offset is kept
verbatim. -/
def resolve_offset (hs cur : Nat) : Option Nat → Nat
  | none => max cur hs
  | some o => if o < hs then hs else o

/-- Step 1 of `merge_binaries`: read every source file and resolve offsets in
input order, threading `current_offset` (initially `total_header_size`; after
each entry it becomes `offset + size` of that entry). -/
def gather (fs : String → Option (List Nat)) (hs : Nat) :
    Nat → List Target → Except MergeError (List FwEntry)
  | _, [] => .ok []
  | current_offset, t :: ts =>
    match fs t.path with
    | none => .error (.sourceRead t.path)
    | some data =>
      let offset : Nat := resolve_offset hs current_offset t.offset
      match gather fs hs (offset + data.length) ts with
      | .error e => .error e
      | .ok rest => .ok (⟨data, offset, data.length⟩ :: rest)

/-- Python `buf[ofs:ofs+len(data)] = data` on a `bytearray`: replace the slice
starting at `ofs` by `data` (when the slice is in bounds this overwrites in
place and preserves the length). -/
def writeAt (buf : List Nat) (ofs : Nat) (data : List Nat) : List Nat :=
  buf.take ofs ++ data ++ buf.drop (ofs + data.length)

/-- Step 2a of `merge_binaries`: `max_end`, the running maximum of
`offset + size` over all entries, starting from `total_header_size`. -/
def maxEnd (hs : Nat) (entries : List FwEntry) : Nat :=
  entries.foldl (fun m e => max m (e.offset + e.size)) hs

/-- Step 2b of `merge_binaries`: allocate `bytearray(max_end)` and copy every
entry's payload at its resolved offset, in input order (later entries
overwrite earlier ones). -/
def composedBuf (hs : Nat) (entries : List FwEntry) : List Nat :=
  entries.foldl (fun buf e => writeAt buf e.offset e.data)
    (List.replicate (maxEnd hs entries) 0)

/-- Step 3 of `merge_binaries`: per-entry CRC over the composed buffer's bytes
`final_bin[ofs:ofs+sz]`. -/
def entryCrcs (hs : Nat) (entries : List FwEntry) : List Nat :=
  entries.map (fun e =>
    calculate_crc32 (((composedBuf hs entries).drop e.offset).take e.size))

/-- Step 5 of `merge_binaries`: concatenate one ELAN header per entry, in
input order. -/
def elanHeaders : List (FwEntry × Nat) → Except MergeError (List Nat)
  | [] => .ok []
  | (e, c) :: rest =>
    match generate_elan_header e.offset e.size c with
    | .error err => .error err
    | .ok h =>
      match elanHeaders rest with
      | .error err => .error err
      | .ok tl => .ok (h ++ tl)

/-- `merge_binaries` from `merger.py`.  On success returns the written buffer
together with the Python return value `(total_header_size, max_end)`. -/
def merge_binaries (fs : String → Option (List Nat)) (targets : List Target) :
    Except MergeError (List Nat × Nat × Nat) :=
  let hs := total_header_size targets.length
  match gather fs hs hs targets with
  | .error e => .error e
  | .ok fw_data_list =>
    match generate_aio_header targets.length with
    | .error e => .error e
    | .ok aio_header =>
      match elanHeaders (fw_data_list.zip (entryCrcs hs fw_data_list)) with
      | .error e => .error e
      | .ok elan_hdrs =>
        .ok (writeAt (composedBuf hs fw_data_list) 0 (aio_header ++ elan_hdrs),
          hs, maxEnd hs fw_data_list)

/-! ## Defaults used with `List.getD` when indexing entry lists -/

/-- Default `Target` for `List.getD`. -/
def noTarget : Target := ⟨"", none⟩

/-- Default `FwEntry` for `List.getD`. -/
def noEntry : FwEntry := ⟨[], 0, 0⟩

/-! ## Lemmas about `writeAt` -/

theorem length_writeAt (buf : List Nat) (ofs : Nat) (data : List Nat)
    (h : ofs + data.length ≤ buf.length) :
    (writeAt buf ofs data).length = buf.length := by
  simp only [writeAt, List.length_append, List.length_take, List.length_drop]
  omega

theorem writeAt_assoc (buf : List Nat) (ofs : Nat) (data : List Nat) :
    writeAt buf ofs data =
      buf.take ofs ++ (data ++ buf.drop (ofs + data.length)) := by
  rw [writeAt, List.append_assoc]

theorem writeAt_getD_left (buf : List Nat) (ofs : Nat) (data : List Nat) (p : Nat)
    (h : p < ofs) (hb : ofs ≤ buf.length) :
    (writeAt buf ofs data).getD p 0 = buf.getD p 0 := by
  rw [writeAt_assoc, List.getD_append _ _ _ _ (by simp; omega)]
  rw [List.getD_eq_getElem?_getD, List.getD_eq_getElem?_getD,
    List.getElem?_take_of_lt h]

theorem writeAt_getD_mid (buf : List Nat) (ofs : Nat) (data : List Nat) (p : Nat)
    (h1 : ofs ≤ p) (h2 : p < ofs + data.length) (hb : ofs ≤ buf.length) :
    (writeAt buf ofs data).getD p 0 = data.getD (p - ofs) 0 := by
  have hlen : (buf.take ofs).length = ofs := by simp; omega
  rw [writeAt_assoc, List.getD_append_right _ _ _ _ (by omega), hlen,
    List.getD_append _ _ _ _ (by omega)]

theorem writeAt_getD_right (buf : List Nat) (ofs : Nat) (data : List Nat) (p : Nat)
    (h : ofs + data.length ≤ p) (hb : ofs ≤ buf.length) :
    (writeAt buf ofs data).getD p 0 = buf.getD p 0 := by
  have hlen : (buf.take ofs).length = ofs := by simp; omega
  rw [writeAt_assoc, List.getD_append_right _ _ _ _ (by omega), hlen]
  rw [List.getD_append_right _ _ _ _ (by omega)]
  rw [List.getD_eq_getElem?_getD, List.getD_eq_getElem?_getD, List.getElem?_drop]
  have harith : ofs + data.length + (p - ofs - data.length) = p := by omega
  rw [harith]

/-! ## Lemmas about the payload-composition fold (step 2 of `merge_binaries`) -/

theorem foldl_writeAt_length (l : List FwEntry) (buf : List Nat)
    (h : ∀ e ∈ l, e.offset + e.data.length ≤ buf.length) :
    (l.foldl (fun b e => writeAt b e.offset e.data) buf).length = buf.length := by
  induction l generalizing buf with
  | nil => rfl
  | cons e l ih =>
    have he : e.offset + e.data.length ≤ buf.length :=
      h e (List.mem_cons_self e l)
    have hw : (writeAt buf e.offset e.data).length = buf.length :=
      length_writeAt buf e.offset e.data he
    rw [List.foldl_cons, ih _ (fun x hx => hw ▸ h x (List.mem_cons_of_mem e hx)),
      hw]

theorem foldl_writeAt_getD_of_not_covered (l : List FwEntry) (buf : List Nat) (p : Nat)
    (hb : ∀ e ∈ l, e.offset + e.data.length ≤ buf.length)
    (hnc : ∀ e ∈ l, ¬ (e.offset ≤ p ∧ p < e.offset + e.data.length)) :
    (l.foldl (fun b e => writeAt b e.offset e.data) buf).getD p 0 = buf.getD p 0 := by
  induction l generalizing buf with
  | nil => rfl
  | cons e l ih =>
    have he : e.offset + e.data.length ≤ buf.length :=
      hb e (List.mem_cons_self e l)
    have hw : (writeAt buf e.offset e.data).length = buf.length :=
      length_writeAt buf e.offset e.data he
    rw [List.foldl_cons,
      ih _ (fun x hx => hw ▸ hb x (List.mem_cons_of_mem e hx))
        (fun x hx => hnc x (List.mem_cons_of_mem e hx))]
    rcases Nat.lt_or_ge p e.offset with hlt | hge
    · exact writeAt_getD_left buf e.offset e.data p hlt (by omega)
    · have : e.offset + e.data.length ≤ p := by
        have := hnc e (List.mem_cons_self e l)
        omega
      exact writeAt_getD_right buf e.offset e.data p this (by omega)

theorem foldl_writeAt_getD_last_covered (l₁ l₂ : List FwEntry) (e : FwEntry)
    (buf : List Nat) (p : Nat)
    (hb : ∀ x ∈ l₁ ++ e :: l₂, x.offset + x.data.length ≤ buf.length)
    (hc1 : e.offset ≤ p) (hc2 : p < e.offset + e.data.length)
    (hnc : ∀ x ∈ l₂, ¬ (x.offset ≤ p ∧ p < x.offset + x.data.length)) :
    ((l₁ ++ e :: l₂).foldl (fun b x => writeAt b x.offset x.data) buf).getD p 0 =
      e.data.getD (p - e.offset) 0 := by
  rw [List.foldl_append, List.foldl_cons]
  have hb1 : ∀ x ∈ l₁, x.offset + x.data.length ≤ buf.length := fun x hx =>
    hb x (List.mem_append_left _ hx)
  have hlen1 : (l₁.foldl (fun b x => writeAt b x.offset x.data) buf).length =
      buf.length := foldl_writeAt_length l₁ buf hb1
  have he : e.offset + e.data.length ≤ buf.length :=
    hb e (List.mem_append_right _ (List.mem_cons_self e l₂))
  have hlen2 : (writeAt (l₁.foldl (fun b x => writeAt b x.offset x.data) buf)
      e.offset e.data).length = buf.length := by
    rw [length_writeAt _ _ _ (by omega : e.offset + e.data.length ≤
      (l₁.foldl (fun b x => writeAt b x.offset x.data) buf).length), hlen1]
  rw [foldl_writeAt_getD_of_not_covered l₂ _ p
    (fun x hx => hlen2 ▸ hb x (List.mem_append_right _ (List.mem_cons_of_mem e hx)))
    hnc]
  exact writeAt_getD_mid _ e.offset e.data p hc1 hc2 (by omega)

/-! ## Lemmas about `gather` (step 1 of `merge_binaries`) -/

theorem hs_le_resolve_offset (hs cur : Nat) (o : Option Nat) :
    hs ≤ resolve_offset hs cur o := by
  cases o with
  | none => exact Nat.le_max_right cur hs
  | some v =>
    rw [resolve_offset]
    split <;> omega

theorem gather_ok_cons {fs : String → Option (List Nat)} {hs cur : Nat}
    {t : Target} {ts : List Target} {es : List FwEntry}
    (h : gather fs hs cur (t :: ts) = .ok es) :
    ∃ data rest,
      fs t.path = some data ∧
      gather fs hs (resolve_offset hs cur t.offset + data.length) ts = .ok rest ∧
      es = ⟨data, resolve_offset hs cur t.offset, data.length⟩ :: rest := by
  cases hfp : fs t.path with
  | none =>
    simp only [gather, hfp] at h
    exact Except.noConfusion h
  | some data =>
    cases hrec : gather fs hs (resolve_offset hs cur t.offset + data.length) ts with
    | error e =>
      simp only [gather, hfp, hrec] at h
      exact Except.noConfusion h
    | ok rest =>
      simp only [gather, hfp, hrec, Except.ok.injEq] at h
      exact ⟨data, rest, rfl, hrec, h.symm⟩

theorem gather_length {fs : String → Option (List Nat)} {hs : Nat} :
    ∀ {cur : Nat} {ts : List Target} {es : List FwEntry},
      gather fs hs cur ts = .ok es → es.length = ts.length
  | _, [], es, h => by
    simp only [gather, Except.ok.injEq] at h
    rw [← h]
    rfl
  | cur, t :: ts, es, h => by
    obtain ⟨data, rest, _, hrec, hes⟩ := gather_ok_cons h
    subst hes
    simp only [List.length_cons, gather_length hrec]

theorem gather_sizes {fs : String → Option (List Nat)} {hs : Nat} :
    ∀ {cur : Nat} {ts : List Target} {es : List FwEntry},
      gather fs hs cur ts = .ok es → ∀ e ∈ es, e.size = e.data.length
  | _, [], es, h => by
    simp only [gather, Except.ok.injEq] at h
    rw [← h]
    intro e he
    exact absurd he (List.not_mem_nil e)
  | cur, t :: ts, es, h => by
    obtain ⟨data, rest, _, hrec, hes⟩ := gather_ok_cons h
    subst hes
    intro e he
    rcases List.mem_cons.mp he with rfl | hmem
    · rfl
    · exact gather_sizes hrec e hmem

theorem gather_offsets_ge {fs : String → Option (List Nat)} {hs : Nat} :
    ∀ {cur : Nat} {ts : List Target} {es : List FwEntry},
      gather fs hs cur ts = .ok es → ∀ e ∈ es, hs ≤ e.offset
  | _, [], es, h => by
    simp only [gather, Except.ok.injEq] at h
    rw [← h]
    intro e he
    exact absurd he (List.not_mem_nil e)
  | cur, t :: ts, es, h => by
    obtain ⟨data, rest, _, hrec, hes⟩ := gather_ok_cons h
    subst hes
    intro e he
    rcases List.mem_cons.mp he with rfl | hmem
    · exact hs_le_resolve_offset hs cur t.offset
    · exact gather_offsets_ge hrec e hmem

/-- Full per-index characterization of the resolved offsets: entry `i`'s
offset is `resolve_offset` applied to the cursor value in force when entry `i`
was processed, which is `cur` for the first entry and the end
(`offset + size`) of the immediately preceding entry afterwards. -/
theorem gather_getD_offset {fs : String → Option (List Nat)} {hs : Nat} :
    ∀ {cur : Nat} {ts : List Target} {es : List FwEntry},
      gather fs hs cur ts = .ok es → ∀ i, i < ts.length →
        (es.getD i noEntry).offset =
          resolve_offset hs
            (if i = 0 then cur
             else (es.getD (i - 1) noEntry).offset + (es.getD (i - 1) noEntry).size)
            ((ts.getD i noTarget).offset)
  | _, [], _, _, i, hi => absurd hi (by simp)
  | cur, t :: ts, es, h, i, hi => by
    obtain ⟨data, rest, _, hrec, hes⟩ := gather_ok_cons h
    subst hes
    cases i with
    | zero => rfl
    | succ j =>
      have hj : j < ts.length := by
        simpa using hi
      have ih := gather_getD_offset hrec j hj
      cases j with
      | zero =>
        simpa using ih
      | succ k =>
        simpa using ih

/-! ## Lemmas about `maxEnd` (step 2a of `merge_binaries`) -/

theorem le_maxEnd : ∀ (l : List FwEntry) (hs : Nat), hs ≤ maxEnd hs l
  | [], hs => Nat.le_refl hs
  | e :: l, hs =>
    Nat.le_trans (Nat.le_max_left hs (e.offset + e.size)) (le_maxEnd l _)

theorem end_le_maxEnd :
    ∀ (l : List FwEntry) (hs : Nat), ∀ e ∈ l, e.offset + e.size ≤ maxEnd hs l
  | e :: l, hs, x, hx => by
    rcases List.mem_cons.mp hx with rfl | hmem
    · exact Nat.le_trans (Nat.le_max_right hs (x.offset + x.size)) (le_maxEnd l _)
    · exact end_le_maxEnd l _ x hmem

theorem maxEnd_cases :
    ∀ (l : List FwEntry) (hs : Nat),
      maxEnd hs l = hs ∨ ∃ e ∈ l, maxEnd hs l = e.offset + e.size
  | [], hs => Or.inl rfl
  | e :: l, hs => by
    have step : maxEnd hs (e :: l) = maxEnd (max hs (e.offset + e.size)) l := rfl
    rcases maxEnd_cases l (max hs (e.offset + e.size)) with h | ⟨x, hx, h⟩
    · rcases Nat.le_total (e.offset + e.size) hs with hle | hle
      · left
        rw [step, h]
        omega
      · right
        exact ⟨e, List.mem_cons_self e l, by rw [step, h]; omega⟩
    · right
      exact ⟨x, List.mem_cons_of_mem e hx, by rw [step, h]⟩

/-! ## Lemmas about `composedBuf` (step 2b of `merge_binaries`) -/

theorem length_composedBuf (hs : Nat) (l : List FwEntry)
    (hsz : ∀ e ∈ l, e.size = e.data.length) :
    (composedBuf hs l).length = maxEnd hs l := by
  rw [composedBuf, foldl_writeAt_length]
  · exact List.length_replicate _ _
  · intro e he
    rw [List.length_replicate, ← hsz e he]
    exact end_le_maxEnd l hs e he

/-- A position covered by no entry keeps the zero fill of `bytearray(max_end)`. -/
theorem composedBuf_getD_not_covered (hs : Nat) (l : List FwEntry) (p : Nat)
    (hsz : ∀ e ∈ l, e.size = e.data.length)
    (hnc : ∀ e ∈ l, ¬ (e.offset ≤ p ∧ p < e.offset + e.size)) :
    (composedBuf hs l).getD p 0 = 0 := by
  rw [composedBuf, foldl_writeAt_getD_of_not_covered]
  · cases Nat.lt_or_ge p (maxEnd hs l) with
    | inl hlt =>
      rw [List.getD_eq_getElem _ _ (by simpa using hlt), List.getElem_replicate]
    | inr hge =>
      exact List.getD_eq_default _ _ (by simpa using hge)
  · intro e he
    rw [List.length_replicate, ← hsz e he]
    exact end_le_maxEnd l hs e he
  · intro e he
    rw [← hsz e he]
    exact hnc e he

/-- The byte of the composed buffer at a position `p` covered by entry `j` and
by no later entry is entry `j`'s payload byte — later entries overwrite
earlier ones. -/
theorem composedBuf_getD_last_covered (hs : Nat) (l : List FwEntry) (p j : Nat)
    (hj : j < l.length)
    (hsz : ∀ e ∈ l, e.size = e.data.length)
    (hc1 : (l.getD j noEntry).offset ≤ p)
    (hc2 : p < (l.getD j noEntry).offset + (l.getD j noEntry).size)
    (hnc : ∀ k, j < k → k < l.length →
      ¬ ((l.getD k noEntry).offset ≤ p ∧
         p < (l.getD k noEntry).offset + (l.getD k noEntry).size)) :
    (composedBuf hs l).getD p 0 =
      (l.getD j noEntry).data.getD (p - (l.getD j noEntry).offset) 0 := by
  have hgetD : l.getD j noEntry = l.get ⟨j, hj⟩ := by
    rw [List.getD_eq_getElem _ _ hj, List.get_eq_getElem]
  have hsplit : l = l.take j ++ l.getD j noEntry :: l.drop (j + 1) := by
    rw [hgetD, List.get_eq_getElem, List.getElem_cons_drop l j hj,
      List.take_append_drop]
  have hmem_j : l.getD j noEntry ∈ l := by
    rw [hgetD, List.get_eq_getElem]
    exact List.getElem_mem hj
  rw [composedBuf]
  rw [show l.foldl (fun buf e => writeAt buf e.offset e.data)
        (List.replicate (maxEnd hs l) 0) =
      (l.take j ++ l.getD j noEntry :: l.drop (j + 1)).foldl
        (fun buf e => writeAt buf e.offset e.data)
        (List.replicate (maxEnd hs l) 0) by rw [← hsplit]]
  rw [foldl_writeAt_getD_last_covered]
  · intro x hx
    rw [← hsplit] at hx
    rw [List.length_replicate, ← hsz x hx]
    exact end_le_maxEnd l hs x hx
  · exact hc1
  · rw [← hsz _ hmem_j]
    exact hc2
  · intro x hx
    obtain ⟨m, hm, hxm⟩ := List.getElem_of_mem hx
    have hm' : j + 1 + m < l.length := by
      have := hm
      simp only [List.length_drop] at this
      omega
    have hxl : x = l.getD (j + 1 + m) noEntry := by
      rw [List.getD_eq_getElem _ _ hm', ← List.getElem_drop l, hxm]
    rw [hxl, ← hsz _ (by rw [List.getD_eq_getElem _ _ hm']; exact List.getElem_mem hm')]
    exact hnc (j + 1 + m) (by omega) hm'

/-! ## Little-endian readback helpers -/

theorem readLE16_of_bytes (buf : List Nat) (i v : Nat) (hv : v ≤ 0xFFFF)
    (h0 : buf.getD i 0 = v % 256) (h1 : buf.getD (i + 1) 0 = v / 256 % 256) :
    readLE16 buf i = v := by
  rw [readLE16, h0, h1]
  omega

theorem readLE32_of_bytes (buf : List Nat) (i v : Nat) (hv : v ≤ 0xFFFFFFFF)
    (h0 : buf.getD i 0 = v % 256) (h1 : buf.getD (i + 1) 0 = v / 256 % 256)
    (h2 : buf.getD (i + 2) 0 = v / 2 ^ 16 % 256)
    (h3 : buf.getD (i + 3) 0 = v / 2 ^ 24 % 256) :
    readLE32 buf i = v := by
  rw [readLE32, h0, h1, h2, h3]
  omega

/-! ## Characterizations of the two header generators -/

theorem generate_aio_header_ok {n : Nat} {A : List Nat}
    (h : generate_aio_header n = .ok A) :
    total_header_size n ≤ 0xFFFF ∧ n ≤ 0xFF ∧
      A = AIO_MAGIC ++ [0x01, 0x00] ++ le16 (total_header_size n) ++ [0x01] ++
        [0x78, 0x56, 0x34, 0x12] ++ [0x00] ++ [n] ++ List.replicate 17 0xFF := by
  rw [generate_aio_header] at h
  split at h
  next hhs =>
    split at h
    next hn =>
      injection h with h
      exact ⟨hhs, hn, h.symm⟩
    next => exact Except.noConfusion h
  next => exact Except.noConfusion h

theorem generate_aio_header_fields {n : Nat} {A : List Nat}
    (h : generate_aio_header n = .ok A) :
    A.length = 0x20 ∧ readLE16 A 0x06 = total_header_size n ∧
      A.getD 0x0E 0 = n := by
  obtain ⟨hhs, _, rfl⟩ := generate_aio_header_ok h
  exact ⟨rfl, readLE16_of_bytes _ _ _ hhs rfl rfl, rfl⟩

theorem generate_elan_header_ok {o s c : Nat} {hdr : List Nat}
    (h : generate_elan_header o s c = .ok hdr) :
    o ≤ 0xFFFFFFFF ∧ s ≤ 0xFFFFFFFF ∧ c ≤ 0xFFFFFFFF ∧
      hdr = le16 ELAN_VENDOR_ID ++ List.replicate 0x20 0x00 ++
        ELAN_PRODUCT_ID ++ [0xFF, 0xFF] ++ [0x34, 0x12] ++ le32 o ++ le32 s ++
        le32 c ++ List.replicate 12 0x00 ++ List.replicate 16 0xFF := by
  rw [generate_elan_header] at h
  split at h
  next ho =>
    split at h
    next hsz =>
      split at h
      next hc =>
        injection h with h
        exact ⟨ho, hsz, hc, h.symm⟩
      next => exact Except.noConfusion h
    next => exact Except.noConfusion h
  next => exact Except.noConfusion h

theorem generate_elan_header_fields {o s c : Nat} {hdr : List Nat}
    (h : generate_elan_header o s c = .ok hdr) :
    hdr.length = 0x50 ∧ readLE32 hdr 0x28 = o ∧ readLE32 hdr 0x2C = s ∧
      readLE32 hdr 0x30 = c := by
  obtain ⟨ho, hsz, hc, rfl⟩ := generate_elan_header_ok h
  exact ⟨rfl, readLE32_of_bytes _ _ _ ho rfl rfl rfl rfl,
    readLE32_of_bytes _ _ _ hsz rfl rfl rfl rfl,
    readLE32_of_bytes _ _ _ hc rfl rfl rfl rfl⟩

/-! ## Lemmas about `elanHeaders` (step 5 of `merge_binaries`) -/

theorem elanHeaders_ok_cons {e : FwEntry} {c : Nat} {rest : List (FwEntry × Nat)}
    {E : List Nat} (h : elanHeaders ((e, c) :: rest) = .ok E) :
    ∃ hd tl, generate_elan_header e.offset e.size c = .ok hd ∧
      elanHeaders rest = .ok tl ∧ E = hd ++ tl := by
  cases hgen : generate_elan_header e.offset e.size c with
  | error err =>
    simp only [elanHeaders, hgen] at h
    exact Except.noConfusion h
  | ok hd =>
    cases hrest : elanHeaders rest with
    | error err =>
      simp only [elanHeaders, hgen, hrest] at h
      exact Except.noConfusion h
    | ok tl =>
      simp only [elanHeaders, hgen, hrest, Except.ok.injEq] at h
      exact ⟨hd, tl, rfl, rfl, h.symm⟩

theorem elanHeaders_length :
    ∀ {l : List (FwEntry × Nat)} {E : List Nat},
      elanHeaders l = .ok E → E.length = 0x50 * l.length
  | [], E, h => by
    simp only [elanHeaders, Except.ok.injEq] at h
    rw [← h]
    rfl
  | (e, c) :: rest, E, h => by
    obtain ⟨hd, tl, hgen, hrest, rfl⟩ := elanHeaders_ok_cons h
    have h1 : hd.length = 0x50 := (generate_elan_header_fields hgen).1
    have h2 : tl.length = 0x50 * rest.length := elanHeaders_length hrest
    simp only [List.length_append, List.length_cons, h1, h2]
    ring

/-- Indexing into the concatenated ELAN headers: byte `k` of block `i` is byte
`k` of the header generated for pair `i`. -/
theorem elanHeaders_getD :
    ∀ {l : List (FwEntry × Nat)} {E : List Nat},
      elanHeaders l = .ok E → ∀ i, i < l.length →
        ∃ hd, generate_elan_header (l.getD i (noEntry, 0)).1.offset
            (l.getD i (noEntry, 0)).1.size (l.getD i (noEntry, 0)).2 = .ok hd ∧
          ∀ k, k < 0x50 → E.getD (0x50 * i + k) 0 = hd.getD k 0
  | [], _, _, i, hi => absurd hi (by simp)
  | (e, c) :: rest, E, h, i, hi => by
    obtain ⟨hd, tl, hgen, hrest, rfl⟩ := elanHeaders_ok_cons h
    have h1 : hd.length = 0x50 := (generate_elan_header_fields hgen).1
    cases i with
    | zero =>
      refine ⟨hd, hgen, fun k hk => ?_⟩
      rw [List.getD_append _ _ _ _ (by omega)]
      norm_num
    | succ j =>
      have hj : j < rest.length := by simpa using hi
      obtain ⟨hd', hgen', hE⟩ := elanHeaders_getD hrest j hj
      refine ⟨hd', by simpa using hgen', fun k hk => ?_⟩
      rw [List.getD_append_right _ _ _ _ (by omega), h1,
        show 0x50 * (j + 1) + k - 0x50 = 0x50 * j + k by ring_nf; omega]
      simpa using hE k hk

/-! ## Destructuring a successful `merge_binaries` call -/

theorem merge_binaries_ok {fs : String → Option (List Nat)} {ts : List Target}
    {buf : List Nat} {h t : Nat}
    (hm : merge_binaries fs ts = .ok (buf, h, t)) :
    ∃ es A E,
      gather fs (total_header_size ts.length) (total_header_size ts.length) ts
        = .ok es ∧
      generate_aio_header ts.length = .ok A ∧
      elanHeaders (es.zip (entryCrcs (total_header_size ts.length) es)) = .ok E ∧
      buf = writeAt (composedBuf (total_header_size ts.length) es) 0 (A ++ E) ∧
      h = total_header_size ts.length ∧
      t = maxEnd (total_header_size ts.length) es := by
  cases hg : gather fs (total_header_size ts.length) (total_header_size ts.length) ts with
  | error e =>
    simp only [merge_binaries, hg] at hm
    exact Except.noConfusion hm
  | ok es =>
    cases haio : generate_aio_header ts.length with
    | error e =>
      simp only [merge_binaries, hg, haio] at hm
      exact Except.noConfusion hm
    | ok A =>
      cases helan : elanHeaders (es.zip (entryCrcs (total_header_size ts.length) es)) with
      | error e =>
        simp only [merge_binaries, hg, haio, helan] at hm
        exact Except.noConfusion hm
      | ok E =>
        simp only [merge_binaries, hg, haio, helan, Except.ok.injEq,
          Prod.mk.injEq] at hm
        exact ⟨es, A, E, rfl, rfl, helan, hm.1.symm, hm.2.1.symm, hm.2.2.symm⟩

/-! ## The final buffer: header write over the composed buffer (step 6) -/

theorem writeAt_zero (buf d : List Nat) :
    writeAt buf 0 d = d ++ buf.drop d.length := by
  rw [writeAt, List.take_zero, List.nil_append, Nat.zero_add]

/-- Bytes at or above the header-prefix length are untouched by the header
write. -/
theorem writeAt_zero_getD_high (buf d : List Nat) (p : Nat) (hp : d.length ≤ p) :
    (writeAt buf 0 d).getD p 0 = buf.getD p 0 := by
  rw [writeAt_zero, List.getD_append_right _ _ _ _ hp,
    List.getD_eq_getElem?_getD, List.getD_eq_getElem?_getD, List.getElem?_drop,
    show d.length + (p - d.length) = p by omega]

/-- Bytes below the header-prefix length come from the header prefix. -/
theorem writeAt_zero_getD_low (buf d : List Nat) (p : Nat) (hp : p < d.length) :
    (writeAt buf 0 d).getD p 0 = d.getD p 0 := by
  rw [writeAt_zero, List.getD_append _ _ _ _ hp]

/-- Suffixes starting at or above the header-prefix length are untouched by
the header write. -/
theorem writeAt_zero_drop_high (buf d : List Nat) (ofs : Nat)
    (hofs : d.length ≤ ofs) :
    (writeAt buf 0 d).drop ofs = buf.drop ofs := by
  rw [writeAt_zero, show ofs = d.length + (ofs - d.length) by omega,
    List.drop_append, List.drop_drop,
    show d.length + (ofs - d.length) = ofs by omega]

/-- The serialized header block `aio_header + elan_headers` has exactly
`total_header_size` bytes. -/
theorem header_block_length {ts : List Target} {es : List FwEntry}
    {A E : List Nat} (hlen : es.length = ts.length)
    (haio : generate_aio_header ts.length = .ok A)
    (helan : elanHeaders (es.zip (entryCrcs (total_header_size ts.length) es)) = .ok E) :
    (A ++ E).length = total_header_size ts.length := by
  have hA : A.length = 0x20 := (generate_aio_header_fields haio).1
  have hE := elanHeaders_length helan
  rw [List.length_append, hA, hE, List.length_zip, entryCrcs,
    List.length_map, Nat.min_self, hlen, total_header_size]
  ring

/-- Decidable equality on `Except`, so that concrete runs of the engine can be
checked by `decide`. -/
instance {ε α : Type} [DecidableEq ε] [DecidableEq α] :
    DecidableEq (Except ε α) := fun x y =>
  match x, y with
  | .error a, .error b =>
    if h : a = b then .isTrue (by rw [h])
    else .isFalse (fun hc => by injection hc; contradiction)
  | .error _, .ok _ => .isFalse (fun hc => Except.noConfusion hc)
  | .ok _, .error _ => .isFalse (fun hc => Except.noConfusion hc)
  | .ok a, .ok b =>
    if h : a = b then .isTrue (by rw [h])
    else .isFalse (fun hc => by injection hc; contradiction)

/-! ## Claim C3 -/

/-- C3: for every merge call with entry count N ≥ 1, every resolved offset is
at least `header_size = 0x20 + N·0x50`, so no entry's payload range
intersects the header region `[0, header_size)`. -/
theorem c3_offsets_above_header (fs : String → Option (List Nat))
    (ts : List Target) (es : List FwEntry)
    (_hN : 1 ≤ ts.length)
    (hg : gather fs (total_header_size ts.length) (total_header_size ts.length)
      ts = .ok es) :
    ∀ e ∈ es, (0x20 + ts.length * 0x50 : Nat) ≤ e.offset ∧
      ∀ p, p < 0x20 + ts.length * 0x50 →
        ¬ (e.offset ≤ p ∧ p < e.offset + e.size) := by
  intro e he
  have h1 : total_header_size ts.length ≤ e.offset := gather_offsets_ge hg e he
  rw [total_header_size] at h1
  exact ⟨h1, fun p hp hcov => by omega⟩

theorem c3_witness :
    1 ≤ ([⟨"a", none⟩] : List Target).length ∧
    gather (fun p => if p = "a" then some [1, 2, 3] else none)
      (total_header_size 1) (total_header_size 1) [⟨"a", none⟩] =
      .ok [⟨[1, 2, 3], 0x70, 3⟩] ∧
    (∀ e ∈ ([⟨[1, 2, 3], 0x70, 3⟩] : List FwEntry),
      (0x20 + 1 * 0x50 : Nat) ≤ e.offset ∧
      ∀ p, p < 0x20 + 1 * 0x50 → ¬ (e.offset ≤ p ∧ p < e.offset + e.size)) :=
  ⟨by decide, by decide,
    c3_offsets_above_header (fun p => if p = "a" then some [1, 2, 3] else none)
      [⟨"a", none⟩] [⟨[1, 2, 3], 0x70, 3⟩] (by decide) (by decide)⟩

/-! ## Claim C4 -/

/-- C4: an entry with an explicit offset is resolved verbatim when the offset
is at least `header_size`, and clamped up to `header_size` when below it. -/
theorem c4_explicit_offset (fs : String → Option (List Nat))
    (ts : List Target) (es : List FwEntry) (i o : Nat)
    (hg : gather fs (total_header_size ts.length) (total_header_size ts.length)
      ts = .ok es)
    (hi : i < ts.length)
    (ho : (ts.getD i noTarget).offset = some o) :
    (total_header_size ts.length ≤ o → (es.getD i noEntry).offset = o) ∧
    (o < total_header_size ts.length →
      (es.getD i noEntry).offset = total_header_size ts.length) := by
  have h := gather_getD_offset hg i hi
  rw [ho] at h
  rw [h]
  constructor <;> intro hcase <;> simp only [resolve_offset] <;> split <;> omega

theorem c4_witness :
    gather (fun p => if p = "a" then some [1, 2, 3] else none)
      (total_header_size 2) (total_header_size 2)
      [⟨"a", some 0x200⟩, ⟨"a", some 3⟩] =
      .ok [⟨[1, 2, 3], 0x200, 3⟩, ⟨[1, 2, 3], 0xC0, 3⟩] ∧
    0 < 2 ∧
    ((([⟨"a", some 0x200⟩, ⟨"a", some 3⟩] : List Target).getD 0 noTarget).offset
      = some 0x200) ∧
    ((total_header_size 2 ≤ 0x200 →
      (([⟨[1, 2, 3], 0x200, 3⟩, ⟨[1, 2, 3], 0xC0, 3⟩] : List FwEntry).getD 0
        noEntry).offset = 0x200) ∧
     (0x200 < total_header_size 2 →
      (([⟨[1, 2, 3], 0x200, 3⟩, ⟨[1, 2, 3], 0xC0, 3⟩] : List FwEntry).getD 0
        noEntry).offset = total_header_size 2)) :=
  ⟨by decide, by decide, by decide,
    c4_explicit_offset (fun p => if p = "a" then some [1, 2, 3] else none)
      [⟨"a", some 0x200⟩, ⟨"a", some 3⟩]
      [⟨[1, 2, 3], 0x200, 3⟩, ⟨[1, 2, 3], 0xC0, 3⟩] 0 0x200
      (by decide) (by decide) (by decide)⟩

/-! ## Claim C1 -/

/-- Input for the C1 counterexample: three source files of 16 bytes each. -/
def fsC1 : String → Option (List Nat)
  | "a" => some (List.replicate 16 1)
  | "b" => some (List.replicate 16 2)
  | "c" => some (List.replicate 16 3)
  | _ => none

/-- Targets for the C1 counterexample: an explicit entry at 0x120, then an
explicit entry at 0x110 (which moves the cursor back down), then an
auto-append entry.  `total_header_size 3 = 0x110`. -/
def tsC1 : List Target :=
  [⟨"a", some 0x120⟩, ⟨"b", some 0x110⟩, ⟨"c", none⟩]

/-- C1 is false on the code: with `tsC1`, the auto-append entry 2 resolves to
0x120 — the end of the immediately preceding entry — while the claim demands
`max` over the ends of ALL previously resolved entries, which is 0x130
(entry 0 ends at 0x130).  The resolved offset 0x120 moreover lies inside
entry 0's resolved range `[0x120, 0x130)`. -/
theorem c1_counterexample :
    (gather fsC1 (total_header_size tsC1.length) (total_header_size tsC1.length)
        tsC1).map
      (fun es =>
        ((es.getD 2 noEntry).offset,
         max (max ((es.getD 0 noEntry).offset + (es.getD 0 noEntry).size)
              ((es.getD 1 noEntry).offset + (es.getD 1 noEntry).size))
            (total_header_size tsC1.length),
         decide ((es.getD 0 noEntry).offset ≤ (es.getD 2 noEntry).offset ∧
           (es.getD 2 noEntry).offset <
             (es.getD 0 noEntry).offset + (es.getD 0 noEntry).size)))
      = .ok (0x120, 0x130, true) ∧ (0x120 : Nat) ≠ 0x130 := by
  decide

/-- C1 (amended): a null-offset entry resolves to
`max(current_offset, header_size)` where `current_offset` is the end
(`offset + size`) of the IMMEDIATELY PRECEDING entry (`header_size` for the
first entry), not the highest end over all previously resolved entries; so an
auto entry directly following an explicit high-offset entry starts at that
entry's end, but after an intervening lower-offset explicit entry it can land
inside an earlier entry's range. -/
theorem c1_auto_append_cursor (fs : String → Option (List Nat))
    (ts : List Target) (es : List FwEntry) (i : Nat)
    (hg : gather fs (total_header_size ts.length) (total_header_size ts.length)
      ts = .ok es)
    (hi : i < ts.length)
    (ho : (ts.getD i noTarget).offset = none) :
    (es.getD i noEntry).offset =
      max (if i = 0 then total_header_size ts.length
           else (es.getD (i - 1) noEntry).offset + (es.getD (i - 1) noEntry).size)
        (total_header_size ts.length) := by
  have h := gather_getD_offset hg i hi
  rw [ho] at h
  exact h

theorem c1_witness :
    gather (fun p => if p = "a" then some [1, 2, 3] else none)
      (total_header_size 2) (total_header_size 2)
      [⟨"a", some 0x200⟩, ⟨"a", none⟩] =
      .ok [⟨[1, 2, 3], 0x200, 3⟩, ⟨[1, 2, 3], 0x203, 3⟩] ∧
    1 < 2 ∧
    ((([⟨"a", some 0x200⟩, ⟨"a", none⟩] : List Target).getD 1 noTarget).offset
      = none) ∧
    (([⟨[1, 2, 3], 0x200, 3⟩, ⟨[1, 2, 3], 0x203, 3⟩] : List FwEntry).getD 1
        noEntry).offset =
      max (if 1 = 0 then total_header_size 2
           else (([⟨[1, 2, 3], 0x200, 3⟩, ⟨[1, 2, 3], 0x203, 3⟩] :
              List FwEntry).getD 0 noEntry).offset +
             (([⟨[1, 2, 3], 0x200, 3⟩, ⟨[1, 2, 3], 0x203, 3⟩] :
              List FwEntry).getD 0 noEntry).size)
        (total_header_size 2) :=
  ⟨by decide, by decide, by decide,
    c1_auto_append_cursor (fun p => if p = "a" then some [1, 2, 3] else none)
      [⟨"a", some 0x200⟩, ⟨"a", none⟩]
      [⟨[1, 2, 3], 0x200, 3⟩, ⟨[1, 2, 3], 0x203, 3⟩] 1
      (by decide) (by decide) (by decide)⟩

/-! ## Claim C7 -/

/-- C7: a successful merge of N entries returns
`(header_size, total_size)` with `header_size = 0x20 + N·0x50`,
`total_size = max(header_size, max over entries of offset + size)` (expressed
by the last three conjuncts), and the written buffer has exactly `total_size`
bytes. -/
theorem c7_return_value (fs : String → Option (List Nat)) (ts : List Target)
    (buf : List Nat) (h t : Nat) (es : List FwEntry)
    (hm : merge_binaries fs ts = .ok (buf, h, t))
    (hg : gather fs (total_header_size ts.length) (total_header_size ts.length)
      ts = .ok es) :
    h = 0x20 + ts.length * 0x50 ∧
    buf.length = t ∧
    h ≤ t ∧
    (∀ e ∈ es, e.offset + e.size ≤ t) ∧
    (t = h ∨ ∃ e ∈ es, t = e.offset + e.size) := by
  obtain ⟨es', A, E, hg', haio, helan, hbuf, hh, ht⟩ := merge_binaries_ok hm
  rw [hg] at hg'
  injection hg' with hes
  subst hes
  have hlen : es.length = ts.length := gather_length hg
  have hsz : ∀ e ∈ es, e.size = e.data.length := gather_sizes hg
  have hhdr : (A ++ E).length = total_header_size ts.length :=
    header_block_length hlen haio helan
  have hcomp : (composedBuf (total_header_size ts.length) es).length =
      maxEnd (total_header_size ts.length) es := length_composedBuf _ _ hsz
  have hbufl : buf.length = maxEnd (total_header_size ts.length) es := by
    rw [hbuf, writeAt_zero, List.length_append, List.length_drop, hcomp, hhdr]
    have := le_maxEnd es (total_header_size ts.length)
    omega
  refine ⟨by rw [hh]; rfl, by rw [hbufl, ht], ?_, ?_, ?_⟩
  · rw [hh, ht]
    exact le_maxEnd es _
  · intro e he
    rw [ht]
    exact end_le_maxEnd es _ e he
  · rw [ht, hh]
    exact maxEnd_cases es _

/-- Shared concrete input for witnesses that need a full successful merge:
one auto-append entry with payload `[1, 2, 3]`. -/
def fsW : String → Option (List Nat)
  | "a" => some [1, 2, 3]
  | _ => none

/-- Single-entry target list for witnesses. -/
def tsW : List Target := [⟨"a", none⟩]

/-- The entry list `gather` produces on `fsW`/`tsW`. -/
def esW : List FwEntry := [⟨[1, 2, 3], 0x70, 3⟩]

/-- The buffer a successful `merge_binaries fsW tsW` writes. -/
def bufW : List Nat :=
  match merge_binaries fsW tsW with
  | .ok (b, _, _) => b
  | .error _ => []

set_option maxRecDepth 10000 in
theorem c7_witness :
    merge_binaries fsW tsW = .ok (bufW, 0x70, 0x73) ∧
    gather fsW (total_header_size 1) (total_header_size 1) tsW = .ok esW ∧
    ((0x70 : Nat) = 0x20 + 1 * 0x50 ∧
     bufW.length = 0x73 ∧
     (0x70 : Nat) ≤ 0x73 ∧
     (∀ e ∈ esW, e.offset + e.size ≤ 0x73) ∧
     ((0x73 : Nat) = 0x70 ∨ ∃ e ∈ esW, (0x73 : Nat) = e.offset + e.size)) :=
  ⟨by decide, by decide,
    c7_return_value fsW tsW bufW 0x70 0x73 esW (by decide) (by decide)⟩

/-! ## Claim C9 -/

theorem gather_error_of_missing {fs : String → Option (List Nat)} (hs : Nat) :
    ∀ (cur : Nat) {ts : List Target}, (∃ t ∈ ts, fs t.path = none) →
      ∃ e, gather fs hs cur ts = .error e
  | _, [], h => absurd h (by simp)
  | cur, t :: ts, h => by
    cases hfp : fs t.path with
    | none => exact ⟨.sourceRead t.path, by simp only [gather, hfp]⟩
    | some data =>
      have hmem : ∃ x ∈ ts, fs x.path = none := by
        obtain ⟨x, hx, hfx⟩ := h
        rcases List.mem_cons.mp hx with rfl | hxs
        · rw [hfp] at hfx
          exact absurd hfx (by simp)
        · exact ⟨x, hxs, hfx⟩
      obtain ⟨e, he⟩ := gather_error_of_missing hs
        (resolve_offset hs cur t.offset + data.length) hmem
      exact ⟨e, by simp only [gather, hfp, he]⟩

/-- C9: if any entry's source file is unreadable (`fs` returns `none` for its
path), `merge_binaries` raises an error; since only the `.ok` result carries
an output buffer, nothing is written to the destination. -/
theorem c9_unreadable_source_aborts (fs : String → Option (List Nat))
    (ts : List Target) (t : Target) (ht : t ∈ ts) (hf : fs t.path = none) :
    ∃ e, merge_binaries fs ts = .error e := by
  obtain ⟨e, he⟩ := gather_error_of_missing (total_header_size ts.length)
    (total_header_size ts.length) ⟨t, ht, hf⟩
  exact ⟨e, by simp only [merge_binaries, he]⟩

theorem c9_witness :
    (⟨"x", none⟩ : Target) ∈ ([⟨"x", none⟩] : List Target) ∧
    (fun _ => (none : Option (List Nat))) (Target.path ⟨"x", none⟩) = none ∧
    ∃ e, merge_binaries (fun _ => none) [⟨"x", none⟩] = .error e :=
  ⟨by decide, rfl,
    c9_unreadable_source_aborts (fun _ => none) [⟨"x", none⟩] ⟨"x", none⟩
      (by decide) rfl⟩

/-! ## Claim C10 -/

/-- C10: with more than 255 entries `merge_binaries` raises an error — the
entry count is serialized with `struct.pack("<B", ...)` — and since only the
`.ok` result carries an output buffer, nothing is written. -/
theorem c10_entry_count_overflow (fs : String → Option (List Nat))
    (ts : List Target) (hcount : 255 < ts.length) :
    ∃ e, merge_binaries fs ts = .error e := by
  cases hg : gather fs (total_header_size ts.length) (total_header_size ts.length) ts with
  | error e => exact ⟨e, by simp only [merge_binaries, hg]⟩
  | ok es =>
    have haio : generate_aio_header ts.length = .error .structError := by
      rw [generate_aio_header]
      split
      · rw [if_neg (by omega)]
      · rfl
    exact ⟨.structError, by simp only [merge_binaries, hg, haio]⟩

set_option maxRecDepth 10000 in
theorem c10_witness :
    255 < (List.replicate 256 (⟨"x", none⟩ : Target)).length ∧
    ∃ e, merge_binaries (fun _ => none) (List.replicate 256 ⟨"x", none⟩)
      = .error e :=
  ⟨by decide,
    c10_entry_count_overflow (fun _ => none) (List.replicate 256 ⟨"x", none⟩)
      (by decide)⟩

/-! ## Claim C6 -/

/-- C6 is false on the code: `generate_elan_header` zero-initializes the
0x50-byte record, so the unspecified bytes between the vendor id and the
product id are 0x00, not 0xFF — e.g. byte 0x02 of any generated header. -/
theorem c6_counterexample :
    (generate_elan_header 0 0 0).map (fun hdr => hdr.getD 0x02 0) = .ok 0x00 ∧
    (0x00 : Nat) ≠ 0xFF := by
  decide

/-- C6 (amended): in every serialized EntryHeader all multi-byte integer
fields are little-endian, the trailing reserved region 0x40–0x4F is filled
with 0xFF and the unique-id bytes at 0x24–0x25 are 0xFF; but the unspecified
bytes 0x02–0x21 between the vendor id and the product id, like the CRC's 12
padding bytes at 0x34–0x3F, are zero-filled. -/
theorem c6_entry_header_layout (o s c : Nat) (hdr : List Nat)
    (h : generate_elan_header o s c = .ok hdr) :
    hdr.length = 0x50 ∧
    readLE16 hdr 0x00 = ELAN_VENDOR_ID ∧
    (hdr.drop 0x02).take 0x20 = List.replicate 0x20 0x00 ∧
    (hdr.drop 0x22).take 2 = ELAN_PRODUCT_ID ∧
    (hdr.drop 0x24).take 2 = [0xFF, 0xFF] ∧
    (hdr.drop 0x26).take 2 = [0x34, 0x12] ∧
    readLE32 hdr 0x28 = o ∧
    readLE32 hdr 0x2C = s ∧
    readLE32 hdr 0x30 = c ∧
    (hdr.drop 0x34).take 12 = List.replicate 12 0x00 ∧
    (hdr.drop 0x40).take 16 = List.replicate 16 0xFF := by
  have hf := generate_elan_header_fields h
  obtain ⟨ho, hsz, hc, rfl⟩ := generate_elan_header_ok h
  have hv0 : (0xF3 : Nat) = ELAN_VENDOR_ID % 256 := by decide
  have hv1 : (0x04 : Nat) = ELAN_VENDOR_ID / 256 % 256 := by decide
  exact ⟨hf.1,
    readLE16_of_bytes _ _ _ (by decide) ((rfl : _ = (0xF3 : Nat)).trans hv0)
      ((rfl : _ = (0x04 : Nat)).trans hv1),
    rfl, rfl, rfl, rfl, hf.2.1, hf.2.2.1, hf.2.2.2, rfl, rfl⟩

set_option maxRecDepth 10000 in
theorem c6_witness :
    generate_elan_header 0x1000 0x200 0xDEADBEEF =
      .ok (le16 ELAN_VENDOR_ID ++ List.replicate 0x20 0x00 ++ ELAN_PRODUCT_ID ++
        [0xFF, 0xFF] ++ [0x34, 0x12] ++ le32 0x1000 ++ le32 0x200 ++
        le32 0xDEADBEEF ++ List.replicate 12 0x00 ++ List.replicate 16 0xFF) ∧
    ((le16 ELAN_VENDOR_ID ++ List.replicate 0x20 0x00 ++ ELAN_PRODUCT_ID ++
        [0xFF, 0xFF] ++ [0x34, 0x12] ++ le32 0x1000 ++ le32 0x200 ++
        le32 0xDEADBEEF ++ List.replicate 12 0x00 ++
        List.replicate 16 0xFF).length = 0x50 ∧
      readLE16 (le16 ELAN_VENDOR_ID ++ List.replicate 0x20 0x00 ++
        ELAN_PRODUCT_ID ++ [0xFF, 0xFF] ++ [0x34, 0x12] ++ le32 0x1000 ++
        le32 0x200 ++ le32 0xDEADBEEF ++ List.replicate 12 0x00 ++
        List.replicate 16 0xFF) 0x00 = ELAN_VENDOR_ID) :=
  ⟨by decide,
    ((c6_entry_header_layout 0x1000 0x200 0xDEADBEEF _ (by decide)).1),
    ((c6_entry_header_layout 0x1000 0x200 0xDEADBEEF _ (by decide)).2.1)⟩

/-! ## Claim C2 -/

/-- C2: the CRC stored for entry `i` equals CRC-32 (reflected polynomial
0xEDB88320, which is what `calculate_crc32` implements) over the final output
buffer's bytes at `[offset, offset + size)` — computed after all payloads
were composited, so an overwritten entry stores the checksum of the
overwriting bytes. -/
theorem c2_crc_over_final_buffer (fs : String → Option (List Nat))
    (ts : List Target) (buf : List Nat) (h t : Nat) (es : List FwEntry) (i : Nat)
    (hm : merge_binaries fs ts = .ok (buf, h, t))
    (hg : gather fs (total_header_size ts.length) (total_header_size ts.length)
      ts = .ok es)
    (hi : i < es.length) :
    (entryCrcs (total_header_size ts.length) es).getD i 0 =
      calculate_crc32 ((buf.drop (es.getD i noEntry).offset).take
        (es.getD i noEntry).size) := by
  obtain ⟨es', A, E, hg', haio, helan, hbuf, hh, ht⟩ := merge_binaries_ok hm
  rw [hg] at hg'
  injection hg' with hes
  subst hes
  have hlen : es.length = ts.length := gather_length hg
  have hhdr : (A ++ E).length = total_header_size ts.length :=
    header_block_length hlen haio helan
  have hofs : total_header_size ts.length ≤ (es.getD i noEntry).offset := by
    apply gather_offsets_ge hg
    rw [List.getD_eq_getElem _ _ hi]
    exact List.getElem_mem hi
  rw [hbuf, writeAt_zero_drop_high _ _ _ (by rw [hhdr]; exact hofs)]
  rw [entryCrcs, List.getD_eq_getElem _ _ (by rw [List.length_map]; exact hi),
    List.getElem_map, List.getD_eq_getElem _ _ hi]

set_option maxRecDepth 10000 in
theorem c2_witness :
    merge_binaries fsW tsW = .ok (bufW, 0x70, 0x73) ∧
    gather fsW (total_header_size 1) (total_header_size 1) tsW = .ok esW ∧
    0 < esW.length ∧
    (entryCrcs (total_header_size 1) esW).getD 0 0 =
      calculate_crc32 ((bufW.drop (esW.getD 0 noEntry).offset).take
        (esW.getD 0 noEntry).size) :=
  ⟨by decide, by decide, by decide,
    c2_crc_over_final_buffer fsW tsW bufW 0x70 0x73 esW 0
      (by decide) (by decide) (by decide)⟩

/-! ## Claim C5 -/

/-- C5: for every position `p` at or above `header_size` that entry `j`
covers while no later entry covers it, the final buffer's byte at `p` is
entry `j`'s payload byte at `p - offset_j`: payloads are written strictly in
input order and later writes replace earlier ones byte for byte. -/
theorem c5_last_writer_wins (fs : String → Option (List Nat))
    (ts : List Target) (buf : List Nat) (h t : Nat) (es : List FwEntry)
    (p j : Nat)
    (hm : merge_binaries fs ts = .ok (buf, h, t))
    (hg : gather fs (total_header_size ts.length) (total_header_size ts.length)
      ts = .ok es)
    (hp : total_header_size ts.length ≤ p)
    (hj : j < es.length)
    (hc1 : (es.getD j noEntry).offset ≤ p)
    (hc2 : p < (es.getD j noEntry).offset + (es.getD j noEntry).size)
    (hlast : ∀ k, j < k → k < es.length →
      ¬ ((es.getD k noEntry).offset ≤ p ∧
         p < (es.getD k noEntry).offset + (es.getD k noEntry).size)) :
    buf.getD p 0 =
      (es.getD j noEntry).data.getD (p - (es.getD j noEntry).offset) 0 := by
  obtain ⟨es', A, E, hg', haio, helan, hbuf, hh, ht⟩ := merge_binaries_ok hm
  rw [hg] at hg'
  injection hg' with hes
  subst hes
  have hlen : es.length = ts.length := gather_length hg
  have hsz : ∀ e ∈ es, e.size = e.data.length := gather_sizes hg
  have hhdr : (A ++ E).length = total_header_size ts.length :=
    header_block_length hlen haio helan
  rw [hbuf, writeAt_zero_getD_high _ _ _ (by rw [hhdr]; exact hp)]
  exact composedBuf_getD_last_covered _ es p j hj hsz hc1 hc2 hlast

set_option maxRecDepth 10000 in
theorem c5_witness :
    merge_binaries fsW tsW = .ok (bufW, 0x70, 0x73) ∧
    gather fsW (total_header_size 1) (total_header_size 1) tsW = .ok esW ∧
    total_header_size 1 ≤ 0x71 ∧
    0 < esW.length ∧
    (esW.getD 0 noEntry).offset ≤ 0x71 ∧
    0x71 < (esW.getD 0 noEntry).offset + (esW.getD 0 noEntry).size ∧
    bufW.getD 0x71 0 =
      (esW.getD 0 noEntry).data.getD (0x71 - (esW.getD 0 noEntry).offset) 0 :=
  ⟨by decide, by decide, by decide, by decide, by decide, by decide,
    c5_last_writer_wins fsW tsW bufW 0x70 0x73 esW 0x71 0
      (by decide) (by decide) (by decide) (by decide) (by decide) (by decide)
      (by intro k hk1 hk2; rw [show esW.length = 1 from rfl] at hk2; omega)⟩

/-! ## Claim C8 -/

theorem readLE32_transfer (buf hd : List Nat) (q k : Nat)
    (h0 : buf.getD q 0 = hd.getD k 0)
    (h1 : buf.getD (q + 1) 0 = hd.getD (k + 1) 0)
    (h2 : buf.getD (q + 2) 0 = hd.getD (k + 2) 0)
    (h3 : buf.getD (q + 3) 0 = hd.getD (k + 3) 0) :
    readLE32 buf q = readLE32 hd k := by
  rw [readLE32, readLE32, h0, h1, h2, h3]

/-- C8: parsing the produced buffer's headers reproduces the merge-time
values: the header size at 0x06 (little-endian 16-bit) equals the returned
header size, the entry count byte at 0x0E equals N, and for every entry `i`
the 32-bit little-endian fields at `0x20 + 0x50·i + 0x28/0x2C/0x30` equal its
resolved offset, size, and stored CRC. -/
theorem c8_header_roundtrip (fs : String → Option (List Nat))
    (ts : List Target) (buf : List Nat) (h t : Nat) (es : List FwEntry)
    (hm : merge_binaries fs ts = .ok (buf, h, t))
    (hg : gather fs (total_header_size ts.length) (total_header_size ts.length)
      ts = .ok es) :
    readLE16 buf 0x06 = h ∧
    buf.getD 0x0E 0 = ts.length ∧
    ∀ i, i < es.length →
      readLE32 buf (0x20 + 0x50 * i + 0x28) = (es.getD i noEntry).offset ∧
      readLE32 buf (0x20 + 0x50 * i + 0x2C) = (es.getD i noEntry).size ∧
      readLE32 buf (0x20 + 0x50 * i + 0x30) =
        (entryCrcs (total_header_size ts.length) es).getD i 0 := by
  obtain ⟨es', A, E, hg', haio, helan, hbuf, hh, ht⟩ := merge_binaries_ok hm
  rw [hg] at hg'
  injection hg' with hes
  subst hes
  have hlen : es.length = ts.length := gather_length hg
  have hhdr : (A ++ E).length = total_header_size ts.length :=
    header_block_length hlen haio helan
  have hAf := generate_aio_header_fields haio
  have hAlen : A.length = 0x20 := hAf.1
  have hHS : (0x20 : Nat) ≤ total_header_size ts.length := by
    rw [total_header_size]
    omega
  have hbA : ∀ q, q < 0x20 → buf.getD q 0 = A.getD q 0 := by
    intro q hq
    rw [hbuf, writeAt_zero_getD_low _ _ _ (by rw [hhdr]; omega),
      List.getD_append _ _ _ _ (by rw [hAlen]; omega)]
  refine ⟨?_, ?_, ?_⟩
  · have hA16 : readLE16 A 0x06 = total_header_size ts.length := hAf.2.1
    rw [readLE16] at hA16 ⊢
    rw [hbA 0x06 (by omega), hbA (0x06 + 1) (by omega), hh]
    exact hA16
  · rw [hbA 0x0E (by omega)]
    exact hAf.2.2
  · intro i hi
    have hits : i < ts.length := hlen ▸ hi
    have hbE : ∀ k, k < 0x50 →
        buf.getD (0x20 + 0x50 * i + k) 0 = E.getD (0x50 * i + k) 0 := by
      intro k hk
      have hin : 0x20 + 0x50 * i + k < (A ++ E).length := by
        rw [hhdr, total_header_size]
        omega
      rw [hbuf, writeAt_zero_getD_low _ _ _ hin,
        List.getD_append_right _ _ _ _ (by rw [hAlen]; omega), hAlen,
        show 0x20 + 0x50 * i + k - 0x20 = 0x50 * i + k by omega]
    have hcl : (entryCrcs (total_header_size ts.length) es).length = es.length := by
      rw [entryCrcs, List.length_map]
    have hzi : i < (es.zip (entryCrcs (total_header_size ts.length) es)).length := by
      rw [List.length_zip, hcl, Nat.min_self]
      exact hi
    obtain ⟨hd, hgen, hE⟩ := elanHeaders_getD helan i hzi
    have key : ∀ k, k < 0x50 →
        buf.getD (0x20 + 0x50 * i + k) 0 = hd.getD k 0 :=
      fun k hk => (hbE k hk).trans (hE k hk)
    have hzget : (es.zip (entryCrcs (total_header_size ts.length) es)).getD i
        (noEntry, 0) =
        (es.getD i noEntry, (entryCrcs (total_header_size ts.length) es).getD i 0) := by
      rw [List.getD_eq_getElem _ _ hzi, List.getElem_zip,
        List.getD_eq_getElem _ _ hi,
        List.getD_eq_getElem _ _ (by rw [hcl]; exact hi)]
    rw [hzget] at hgen
    have hf := generate_elan_header_fields hgen
    refine ⟨?_, ?_, ?_⟩
    · rw [readLE32_transfer buf hd (0x20 + 0x50 * i + 0x28) 0x28
        (key 0x28 (by omega))
        (by rw [show 0x20 + 0x50 * i + 0x28 + 1 = 0x20 + 0x50 * i + 0x29 by omega]
            exact key 0x29 (by omega))
        (by rw [show 0x20 + 0x50 * i + 0x28 + 2 = 0x20 + 0x50 * i + 0x2A by omega]
            exact key 0x2A (by omega))
        (by rw [show 0x20 + 0x50 * i + 0x28 + 3 = 0x20 + 0x50 * i + 0x2B by omega]
            exact key 0x2B (by omega))]
      exact hf.2.1
    · rw [readLE32_transfer buf hd (0x20 + 0x50 * i + 0x2C) 0x2C
        (key 0x2C (by omega))
        (by rw [show 0x20 + 0x50 * i + 0x2C + 1 = 0x20 + 0x50 * i + 0x2D by omega]
            exact key 0x2D (by omega))
        (by rw [show 0x20 + 0x50 * i + 0x2C + 2 = 0x20 + 0x50 * i + 0x2E by omega]
            exact key 0x2E (by omega))
        (by rw [show 0x20 + 0x50 * i + 0x2C + 3 = 0x20 + 0x50 * i + 0x2F by omega]
            exact key 0x2F (by omega))]
      exact hf.2.2.1
    · rw [readLE32_transfer buf hd (0x20 + 0x50 * i + 0x30) 0x30
        (key 0x30 (by omega))
        (by rw [show 0x20 + 0x50 * i + 0x30 + 1 = 0x20 + 0x50 * i + 0x31 by omega]
            exact key 0x31 (by omega))
        (by rw [show 0x20 + 0x50 * i + 0x30 + 2 = 0x20 + 0x50 * i + 0x32 by omega]
            exact key 0x32 (by omega))
        (by rw [show 0x20 + 0x50 * i + 0x30 + 3 = 0x20 + 0x50 * i + 0x33 by omega]
            exact key 0x33 (by omega))]
      exact hf.2.2.2

set_option maxRecDepth 10000 in
theorem c8_witness :
    merge_binaries fsW tsW = .ok (bufW, 0x70, 0x73) ∧
    gather fsW (total_header_size 1) (total_header_size 1) tsW = .ok esW ∧
    (readLE16 bufW 0x06 = 0x70 ∧
     bufW.getD 0x0E 0 = 1 ∧
     ∀ i, i < esW.length →
       readLE32 bufW (0x20 + 0x50 * i + 0x28) = (esW.getD i noEntry).offset ∧
       readLE32 bufW (0x20 + 0x50 * i + 0x2C) = (esW.getD i noEntry).size ∧
       readLE32 bufW (0x20 + 0x50 * i + 0x30) =
         (entryCrcs (total_header_size 1) esW).getD i 0) :=
  ⟨by decide, by decide,
    c8_header_roundtrip fsW tsW bufW 0x70 0x73 esW (by decide) (by decide)⟩
